import Mathlib

/-
  Shallow embedding of scripts/syzygy_blunders.py (stash_tools).

  The script probes a chess engine on tablebase-adjudicated positions.
  A position is abstracted to the two pieces of data the core consumes:
  its game-over flag and the tablebase DTZ value (`Option Int`, `none`
  when the tablebase cannot adjudicate).  The engine is abstracted to a
  function from the 0-indexed iteration number to the optional relative
  centipawn score it reports for that iteration's search
  (`info["score"]` may be absent, hence `Option Int`).

  Side effects (sample-file writes, failure-file writes, engine
  searches) are modelled as an explicit event trace, so ordering and
  count claims can be stated.  The node-count schedule of lines 43-45
  uses Python float arithmetic; it is embedded over the reals.
-/

namespace SyzygyBlunders

/-- Ground-truth classes derived from a DTZ probe (the `result` string
of lines 15-24: `Unknown` models the early returns, and `"="`, `"+"`,
`"-"` become `Draw`, `Win`, `Loss`). -/
inductive GroundTruth
  | Win
  | Loss
  | Draw
  | Unknown
deriving DecidableEq

/-- Miseval labels written in the `c0` field of a failure record
(lines 70-81). -/
inductive Miseval
  | OptimisticDraw
  | PessimisticDraw
  | BlindToWin
  | BlindToLoss
deriving DecidableEq

/-- Outcome of the probe loop of lines 37-68: early solve at an
iteration with its score, exhaustion carrying `last_eval`, or the
engine-error early return of lines 52-54. -/
inductive ProbeOutcome
  | Solved (iter : Nat) (score : Int)
  | Exhausted (lastEval : Option Int)
  | EngineError
deriving DecidableEq

/-- Observable effects of `maybe_analyse_board`, in program order:
a line appended to `samples.epd` (lines 29-30), an engine search for
iteration `iter` (line 49), a line appended to `failures.epd` with its
label and `ce` operand (lines 84-90).  `Crash` marks the
uninitialised-variable paths that only a zero-iteration run reaches. -/
inductive Event
  | WriteSample
  | Search (iter : Nat)
  | WriteFailure (label : Miseval) (lastEval : Option Int)
  | Crash
deriving DecidableEq

/-- Lines 15-24: checkmate/stalemate positions and positions without a
DTZ value classify as `Unknown`; otherwise
`result = "=" if abs(dtz) > 100 or dtz == 0 else "+" if dtz > 0 else "-"`. -/
def classify_dtz (gameOver : Bool) (dtz : Option Int) : GroundTruth :=
  if gameOver then GroundTruth.Unknown
  else
    match dtz with
    | none => GroundTruth.Unknown
    | some d =>
        if 100 < |d| ∨ d = 0 then GroundTruth.Draw
        else if 0 < d then GroundTruth.Win
        else GroundTruth.Loss

/-- The solved test of lines 61-63: the engine's score agrees with the
ground truth within the configured thresholds. -/
def solvedTest (result : GroundTruth) (draw win score : Int) : Bool :=
  (decide (result = GroundTruth.Draw) && decide (|score| < draw))
    || (decide (result = GroundTruth.Win) && decide (win < score))
    || (decide (result = GroundTruth.Loss) && decide (score < -win))

/-- Miseval classification of lines 70-81 for an exhausted probe, as a
function of the ground truth, the draw threshold and the last score. -/
def classify_failure (result : GroundTruth) (draw score : Int) : Miseval :=
  if result = GroundTruth.Draw then
    if draw < score then Miseval.OptimisticDraw else Miseval.PessimisticDraw
  else if result = GroundTruth.Win then Miseval.BlindToWin
  else Miseval.BlindToLoss

/-- The loop of lines 37-68 as a state machine on (remaining
iterations, current iteration index, `last_eval`), returning the probe
outcome.  `engine n` is the score reported by the search of iteration
`n` (`none` when `"score" not in info`). -/
def runProbe (engine : Nat → Option Int) (result : GroundTruth) (draw win : Int) :
    Nat → Nat → Option Int → ProbeOutcome
  | 0, _, last => ProbeOutcome.Exhausted last
  | fuel + 1, n, _ =>
      match engine n with
      | none => ProbeOutcome.EngineError
      | some s =>
          if solvedTest result draw win s then ProbeOutcome.Solved n s
          else runProbe engine result draw win fuel (n + 1) (some s)

/-- The probe of a position with `iters` configured iterations. -/
def probe (engine : Nat → Option Int) (result : GroundTruth) (draw win : Int)
    (iters : Nat) : ProbeOutcome :=
  runProbe engine result draw win iters 0 none

/-- Events emitted after the loop exhausts (lines 70-94): a failure
record built from `classify_failure` and `ce = last_eval`.  When
`last_eval` is still `none` (possible only for a zero-iteration run)
the Python code reads uninitialised/`None` values: for a drawn result
it raises before writing (line 74), otherwise it writes `ce=None` and
raises at the final logging line (line 93); both paths end in `Crash`. -/
def exhaustEvents (result : GroundTruth) (draw : Int) : Option Int → List Event
  | some s => [Event.WriteFailure (classify_failure result draw s) (some s)]
  | none =>
      match result with
      | GroundTruth.Draw => [Event.Crash]
      | GroundTruth.Win => [Event.WriteFailure Miseval.BlindToWin none, Event.Crash]
      | _ => [Event.WriteFailure Miseval.BlindToLoss none, Event.Crash]

/-- Event trace of the loop of lines 37-68 followed by the failure
handling of lines 70-94.  Each iteration issues its search first; a
missing score returns with no further events (lines 52-54); a solved
score returns with no further events (lines 61-68). -/
def loopEvents (engine : Nat → Option Int) (result : GroundTruth) (draw win : Int) :
    Nat → Nat → Option Int → List Event
  | 0, _, last => exhaustEvents result draw last
  | fuel + 1, n, _ =>
      Event.Search n ::
        match engine n with
        | none => []
        | some s =>
            if solvedTest result draw win s then []
            else loopEvents engine result draw win fuel (n + 1) (some s)

/-- Event trace of `maybe_analyse_board` (lines 13-94): unknown ground
truth returns before any effect; otherwise the sample record is written
(lines 29-30) and then the probe loop runs. -/
def maybeAnalyseEvents (gameOver : Bool) (dtz : Option Int) (engine : Nat → Option Int)
    (draw win : Int) (iters : Nat) : List Event :=
  match classify_dtz gameOver dtz with
  | GroundTruth.Unknown => []
  | result => Event.WriteSample :: loopEvents engine result draw win iters 0 none

/-- Number of engine searches issued in a trace. -/
def countSearches (es : List Event) : Nat :=
  es.countP fun e =>
    match e with
    | Event.Search _ => true
    | _ => false

/-- Number of sample records written in a trace. -/
def countSamples (es : List Event) : Nat :=
  es.countP fun e =>
    match e with
    | Event.WriteSample => true
    | _ => false

/-- The node budget of iteration `n` (lines 43-45):
`round(min_nodes * (max_nodes / min_nodes) ** (n / (iters - 1)))`,
with Python's float arithmetic idealised over the reals. -/
noncomputable def cur_nodes (min_nodes max_nodes iters n : Nat) : Int :=
  round ((min_nodes : Real) *
    ((max_nodes : Real) / (min_nodes : Real)) ^ ((n : Real) / ((iters : Real) - 1)))

/-- The same budget computation with the division of line 43 made
explicit: Python raises `ZeroDivisionError` when `iters - 1 == 0`,
modelled as `none`. -/
noncomputable def cur_nodes_checked (min_nodes max_nodes iters n : Nat) : Option Int :=
  if (iters : Int) - 1 = 0 then none
  else some (cur_nodes min_nodes max_nodes iters n)

/-- The full schedule of budgets used by the `range(args.iters)` loop
of line 37. -/
noncomputable def nodeSchedule (min_nodes max_nodes iters : Nat) : List Int :=
  (List.range iters).map (cur_nodes min_nodes max_nodes iters)

/-- The EPD loop of lines 212-219: every line of an EPD file is
analysed unconditionally, with no sampling draw. -/
def processEpdFile {α : Type} (analyse : α → List Event) (lines : List α) :
    List (List Event) :=
  lines.map analyse

/-- The sampling decision of line 235: a uniform draw on [0, 100] is
compared against the configured rate. -/
def should_sample (u rate : Rat) : Bool :=
  decide (u ≤ rate)

/-- The per-game PGN loop body of lines 230-236: each position reached
after a push is paired with its own fresh uniform draw, and is analysed
exactly when the draw passes the rate test. -/
def processGameMoves {α : Type} (analyse : α → List Event) (rate : Rat) :
    List (α × Rat) → List (Option (List Event))
  | [] => []
  | pu :: rest =>
      (if should_sample pu.2 rate then some (analyse pu.1) else none)
        :: processGameMoves analyse rate rest

/-- The board states visited by the loop of lines 230-236: starting
from the game's initial board, each mainline move is pushed and the
resulting board (never the initial one) becomes a sampling candidate. -/
def replayCandidates {α β : Type} (push : β → α → β) : β → List α → List β
  | _, [] => []
  | b, m :: ms =>
      let b2 := push b m
      b2 :: replayCandidates push b2 ms

example : classify_dtz false (some 0) = GroundTruth.Draw := by decide
example : classify_dtz false (some 37) = GroundTruth.Win := by decide
example : classify_dtz false (some (-5)) = GroundTruth.Loss := by decide
example : classify_dtz false (some 150) = GroundTruth.Draw := by decide
example : classify_dtz false none = GroundTruth.Unknown := by decide
example : classify_dtz true (some 1) = GroundTruth.Unknown := by decide
example : classify_failure GroundTruth.Draw 100 250 = Miseval.OptimisticDraw := by decide
example : classify_failure GroundTruth.Draw 100 (-250) = Miseval.PessimisticDraw := by decide
example : probe (fun _ => some 300) GroundTruth.Win 100 200 5 =
    ProbeOutcome.Solved 0 300 := by decide
example : probe (fun _ => some 500) GroundTruth.Draw 100 200 3 =
    ProbeOutcome.Exhausted (some 500) := by decide
example : maybeAnalyseEvents false (some 0) (fun _ => some 500) 100 200 2 =
    [Event.WriteSample, Event.Search 0, Event.Search 1,
      Event.WriteFailure Miseval.OptimisticDraw (some 500)] := by decide

theorem solvedTest_iff (result : GroundTruth) (draw win s : Int) :
    solvedTest result draw win s = true ↔
      (result = GroundTruth.Draw ∧ |s| < draw) ∨
        (result = GroundTruth.Win ∧ win < s) ∨
          (result = GroundTruth.Loss ∧ s < -win) := by
  simp [solvedTest]
  tauto

theorem maybeAnalyseEvents_eq (gameOver : Bool) (dtz : Option Int)
    (engine : Nat → Option Int) (draw win : Int) (iters : Nat)
    (h : classify_dtz gameOver dtz ≠ GroundTruth.Unknown) :
    maybeAnalyseEvents gameOver dtz engine draw win iters =
      Event.WriteSample ::
        loopEvents engine (classify_dtz gameOver dtz) draw win iters 0 none := by
  unfold maybeAnalyseEvents
  cases hc : classify_dtz gameOver dtz <;> simp_all

theorem loopEvents_no_sample (engine : Nat → Option Int) (result : GroundTruth)
    (draw win : Int) :
    ∀ fuel n last, Event.WriteSample ∉ loopEvents engine result draw win fuel n last := by
  intro fuel
  induction fuel with
  | zero =>
      intro n last
      cases last with
      | some s => simp [loopEvents, exhaustEvents]
      | none => cases result <;> simp [loopEvents, exhaustEvents]
  | succ fuel ih =>
      intro n last
      simp only [loopEvents]
      cases h : engine n with
      | none => simp
      | some s =>
          by_cases hs : solvedTest result draw win s <;> simp [hs, ih]

theorem runProbe_solved (engine : Nat → Option Int) (f : Nat → Int)
    (result : GroundTruth) (draw win : Int) (heng : ∀ m, engine m = some (f m)) :
    ∀ fuel n n₀ last, n ≤ n₀ → n₀ < n + fuel →
      solvedTest result draw win (f n₀) = true →
      (∀ m, n ≤ m → m < n₀ → solvedTest result draw win (f m) = false) →
      runProbe engine result draw win fuel n last = ProbeOutcome.Solved n₀ (f n₀) := by
  intro fuel
  induction fuel with
  | zero =>
      intro n n₀ last h1 h2 _ _
      exact absurd h2 (by omega)
  | succ fuel ih =>
      intro n n₀ last h1 h2 hsol hmin
      simp only [runProbe, heng n]
      by_cases hn : n = n₀
      · subst hn
        simp [hsol]
      · have hlt : n < n₀ := lt_of_le_of_ne h1 hn
        have hns : solvedTest result draw win (f n) = false := hmin n le_rfl hlt
        simp only [hns, Bool.false_eq_true, if_false]
        exact ih (n + 1) n₀ (some (f n)) (by omega) (by omega) hsol
          (fun m hm1 hm2 => hmin m (by omega) hm2)

theorem loopEvents_solved (engine : Nat → Option Int) (f : Nat → Int)
    (result : GroundTruth) (draw win : Int) (heng : ∀ m, engine m = some (f m)) :
    ∀ fuel n n₀ last, n ≤ n₀ → n₀ < n + fuel →
      solvedTest result draw win (f n₀) = true →
      (∀ m, n ≤ m → m < n₀ → solvedTest result draw win (f m) = false) →
      loopEvents engine result draw win fuel n last =
        (List.range' n (n₀ + 1 - n)).map Event.Search := by
  intro fuel
  induction fuel with
  | zero =>
      intro n n₀ last h1 h2 _ _
      exact absurd h2 (by omega)
  | succ fuel ih =>
      intro n n₀ last h1 h2 hsol hmin
      simp only [loopEvents, heng n]
      by_cases hn : n = n₀
      · subst hn
        simp [hsol, List.range']
      · have hlt : n < n₀ := lt_of_le_of_ne h1 hn
        have hns : solvedTest result draw win (f n) = false := hmin n le_rfl hlt
        simp only [hns, Bool.false_eq_true, if_false]
        rw [ih (n + 1) n₀ (some (f n)) (by omega) (by omega) hsol
          (fun m hm1 hm2 => hmin m (by omega) hm2)]
        have hk : n₀ + 1 - n = (n₀ + 1 - (n + 1)) + 1 := by omega
        rw [hk, List.range'_succ]
        simp

theorem runProbe_exhausted (engine : Nat → Option Int) (f : Nat → Int)
    (result : GroundTruth) (draw win : Int) (heng : ∀ m, engine m = some (f m)) :
    ∀ fuel n last, 1 ≤ fuel →
      (∀ m, n ≤ m → m < n + fuel → solvedTest result draw win (f m) = false) →
      runProbe engine result draw win fuel n last =
        ProbeOutcome.Exhausted (some (f (n + fuel - 1))) := by
  intro fuel
  induction fuel with
  | zero =>
      intro n last h1 _
      exact absurd h1 (by omega)
  | succ fuel ih =>
      intro n last _ hns
      simp only [runProbe, heng n]
      have h0 : solvedTest result draw win (f n) = false := hns n le_rfl (by omega)
      simp only [h0, Bool.false_eq_true, if_false]
      cases fuel with
      | zero => simp [runProbe]
      | succ fuel2 =>
          rw [ih (n + 1) (some (f n)) (by omega)
            (fun m hm1 hm2 => hns m (by omega) (by omega))]
          have : n + 1 + (fuel2 + 1) - 1 = n + (fuel2 + 1 + 1) - 1 := by omega
          rw [this]

theorem loopEvents_exhausted (engine : Nat → Option Int) (f : Nat → Int)
    (result : GroundTruth) (draw win : Int) (heng : ∀ m, engine m = some (f m)) :
    ∀ fuel n last, 1 ≤ fuel →
      (∀ m, n ≤ m → m < n + fuel → solvedTest result draw win (f m) = false) →
      loopEvents engine result draw win fuel n last =
        (List.range' n fuel).map Event.Search ++
          [Event.WriteFailure (classify_failure result draw (f (n + fuel - 1)))
            (some (f (n + fuel - 1)))] := by
  intro fuel
  induction fuel with
  | zero =>
      intro n last h1 _
      exact absurd h1 (by omega)
  | succ fuel ih =>
      intro n last _ hns
      simp only [loopEvents, heng n]
      have h0 : solvedTest result draw win (f n) = false := hns n le_rfl (by omega)
      simp only [h0, Bool.false_eq_true, if_false]
      cases fuel with
      | zero => simp [loopEvents, exhaustEvents, List.range']
      | succ fuel2 =>
          rw [ih (n + 1) (some (f n)) (by omega)
            (fun m hm1 hm2 => hns m (by omega) (by omega))]
          have h1 : n + 1 + (fuel2 + 1) - 1 = n + (fuel2 + 1 + 1) - 1 := by omega
          rw [h1]
          simp [List.range'_succ]

theorem runProbe_engineError (engine : Nat → Option Int) (f : Nat → Int)
    (result : GroundTruth) (draw win : Int) (n₀ : Nat) (herr : engine n₀ = none)
    (hbefore : ∀ m, m < n₀ → engine m = some (f m)) :
    ∀ fuel n last, n ≤ n₀ → n₀ < n + fuel →
      (∀ m, n ≤ m → m < n₀ → solvedTest result draw win (f m) = false) →
      runProbe engine result draw win fuel n last = ProbeOutcome.EngineError := by
  intro fuel
  induction fuel with
  | zero =>
      intro n last h1 h2 _
      exact absurd h2 (by omega)
  | succ fuel ih =>
      intro n last h1 h2 hns
      by_cases hn : n = n₀
      · subst hn
        simp only [runProbe, herr]
      · have hlt : n < n₀ := lt_of_le_of_ne h1 hn
        simp only [runProbe, hbefore n hlt]
        have h0 : solvedTest result draw win (f n) = false := hns n le_rfl hlt
        simp only [h0, Bool.false_eq_true, if_false]
        exact ih (n + 1) (some (f n)) (by omega) (by omega)
          (fun m hm1 hm2 => hns m (by omega) hm2)

theorem loopEvents_engineError (engine : Nat → Option Int) (f : Nat → Int)
    (result : GroundTruth) (draw win : Int) (n₀ : Nat) (herr : engine n₀ = none)
    (hbefore : ∀ m, m < n₀ → engine m = some (f m)) :
    ∀ fuel n last, n ≤ n₀ → n₀ < n + fuel →
      (∀ m, n ≤ m → m < n₀ → solvedTest result draw win (f m) = false) →
      loopEvents engine result draw win fuel n last =
        (List.range' n (n₀ + 1 - n)).map Event.Search := by
  intro fuel
  induction fuel with
  | zero =>
      intro n last h1 h2 _
      exact absurd h2 (by omega)
  | succ fuel ih =>
      intro n last h1 h2 hns
      by_cases hn : n = n₀
      · subst hn
        simp only [loopEvents, herr]
        simp [List.range']
      · have hlt : n < n₀ := lt_of_le_of_ne h1 hn
        simp only [loopEvents, hbefore n hlt]
        have h0 : solvedTest result draw win (f n) = false := hns n le_rfl hlt
        simp only [h0, Bool.false_eq_true, if_false]
        rw [ih (n + 1) (some (f n)) (by omega) (by omega)
          (fun m hm1 hm2 => hns m (by omega) hm2)]
        have hk : n₀ + 1 - n = (n₀ + 1 - (n + 1)) + 1 := by omega
        rw [hk, List.range'_succ]
        simp

theorem loopEvents_no_failure_of_engineError (engine : Nat → Option Int)
    (result : GroundTruth) (draw win : Int) :
    ∀ fuel n last,
      runProbe engine result draw win fuel n last = ProbeOutcome.EngineError →
      ∀ lab ce, Event.WriteFailure lab ce ∉ loopEvents engine result draw win fuel n last := by
  intro fuel
  induction fuel with
  | zero =>
      intro n last h
      simp [runProbe] at h
  | succ fuel ih =>
      intro n last h lab ce
      simp only [runProbe] at h
      simp only [loopEvents]
      cases he : engine n with
      | none => simp
      | some s =>
          rw [he] at h
          by_cases hs : solvedTest result draw win s
          · simp [hs] at h
          · simp only [hs, Bool.false_eq_true, if_false] at h ⊢
            simp only [List.mem_cons]
            rintro (hbad | hmem)
            · exact Event.noConfusion hbad
            · exact ih (n + 1) (some s) h lab ce hmem

theorem countSearches_map_range (n k : Nat) (tail : List Event) :
    countSearches ((List.range' n k).map Event.Search ++ tail) =
      k + countSearches tail := by
  unfold countSearches
  rw [List.countP_append, List.countP_map]
  have h : List.countP ((fun e =>
      match e with
      | Event.Search _ => true
      | _ => false) ∘ Event.Search) (List.range' n k) = (List.range' n k).length :=
    List.countP_eq_length.mpr (fun a _ => rfl)
  rw [h, List.length_range']

theorem countSearches_cons_sample (es : List Event) :
    countSearches (Event.WriteSample :: es) = countSearches es := by
  simp [countSearches, List.countP_cons]

theorem countSearches_map_range_nil (n k : Nat) :
    countSearches ((List.range' n k).map Event.Search) = k := by
  have h := countSearches_map_range n k []
  simpa [countSearches] using h

/-- C1: for a position with known ground truth, the probe declares the
position solved exactly when the ground truth and the score satisfy the
threshold tests of lines 61-63; at the first iteration whose score
passes the test it returns `Solved` with that iteration and score, and
exactly that many searches (no later, larger-budget one) are issued. -/
theorem probe_solved_at_first_budget (gameOver : Bool) (dtz : Option Int)
    (engine : Nat → Option Int) (f : Nat → Int) (draw win : Int) (iters n₀ : Nat)
    (hknown : classify_dtz gameOver dtz ≠ GroundTruth.Unknown)
    (heng : ∀ m, engine m = some (f m)) (hlt : n₀ < iters)
    (hsol : solvedTest (classify_dtz gameOver dtz) draw win (f n₀) = true)
    (hmin : ∀ m, m < n₀ →
      solvedTest (classify_dtz gameOver dtz) draw win (f m) = false) :
    (∀ s, solvedTest (classify_dtz gameOver dtz) draw win s = true ↔
        (classify_dtz gameOver dtz = GroundTruth.Draw ∧ |s| < draw) ∨
          (classify_dtz gameOver dtz = GroundTruth.Win ∧ win < s) ∨
            (classify_dtz gameOver dtz = GroundTruth.Loss ∧ s < -win)) ∧
      probe engine (classify_dtz gameOver dtz) draw win iters =
        ProbeOutcome.Solved n₀ (f n₀) ∧
      countSearches (maybeAnalyseEvents gameOver dtz engine draw win iters) =
        n₀ + 1 := by
  refine ⟨fun s => solvedTest_iff _ _ _ _, ?_, ?_⟩
  · exact runProbe_solved engine f _ draw win heng iters 0 n₀ none (by omega)
      (by omega) hsol (fun m _ hm2 => hmin m hm2)
  · rw [maybeAnalyseEvents_eq _ _ _ _ _ _ hknown,
      loopEvents_solved engine f _ draw win heng iters 0 n₀ none (by omega)
        (by omega) hsol (fun m _ hm2 => hmin m hm2),
      countSearches_cons_sample, countSearches_map_range_nil]
    omega

theorem probe_solved_at_first_budget_witness :
    probe (fun _ => some 300) (classify_dtz false (some 5)) 100 200 5 =
      ProbeOutcome.Solved 0 300 :=
  (probe_solved_at_first_budget false (some 5) (fun _ => some 300) (fun _ => 300)
    100 200 5 0 (by decide) (fun _ => rfl) (by omega) (by decide)
    (fun m hm => absurd hm (Nat.not_lt_zero m))).2.1

/-- C3: the ground-truth classification is `Unknown` exactly for
terminal positions and positions without a DTZ value; such positions
are skipped without any effect; otherwise the DTZ is mapped to
Draw/Win/Loss by the rule of line 24. -/
theorem ground_truth_classification (gameOver : Bool) (dtz : Option Int) :
    (classify_dtz gameOver dtz = GroundTruth.Unknown ↔
      gameOver = true ∨ dtz = none) ∧
      (∀ d : Int, classify_dtz false (some d) =
        if d = 0 ∨ 100 < |d| then GroundTruth.Draw
        else if 0 < d then GroundTruth.Win
        else GroundTruth.Loss) ∧
      (classify_dtz gameOver dtz = GroundTruth.Unknown →
        ∀ engine draw win iters,
          maybeAnalyseEvents gameOver dtz engine draw win iters = []) := by
  refine ⟨?_, ?_, ?_⟩
  · cases gameOver with
    | true => simp [classify_dtz]
    | false =>
        cases dtz with
        | none => simp [classify_dtz]
        | some d =>
            simp only [classify_dtz, if_false, Bool.false_eq_true]
            constructor
            · intro h
              split at h <;> simp_all
              split at h <;> simp_all
            · rintro (h | h) <;> simp_all
  · intro d
    simp [classify_dtz, or_comm]
  · intro h engine draw win iters
    simp [maybeAnalyseEvents, h]

theorem ground_truth_classification_witness :
    maybeAnalyseEvents true none (fun _ => some 0) 100 200 5 = [] :=
  (ground_truth_classification true none).2.2 rfl (fun _ => some 0) 100 200 5

/-- C4: the miseval label of an exhausted probe is a total function of
the ground truth and the final score: an overrated draw gives
`OptimisticDraw`, any other draw gives `PessimisticDraw`, a missed win
gives `BlindToWin` and a missed loss gives `BlindToLoss`; the four
concrete instances of the spec evaluate accordingly. -/
theorem miseval_classification :
    (∀ draw s : Int, draw < s →
      classify_failure GroundTruth.Draw draw s = Miseval.OptimisticDraw) ∧
      (∀ draw s : Int, s ≤ draw →
        classify_failure GroundTruth.Draw draw s = Miseval.PessimisticDraw) ∧
      (∀ draw s : Int,
        classify_failure GroundTruth.Win draw s = Miseval.BlindToWin) ∧
      (∀ draw s : Int,
        classify_failure GroundTruth.Loss draw s = Miseval.BlindToLoss) ∧
      classify_failure GroundTruth.Draw 100 250 = Miseval.OptimisticDraw ∧
      classify_failure GroundTruth.Draw 100 (-250) = Miseval.PessimisticDraw ∧
      classify_failure GroundTruth.Win 100 (-10) = Miseval.BlindToWin ∧
      classify_failure GroundTruth.Loss 100 10 = Miseval.BlindToLoss := by
  refine ⟨?_, ?_, ?_, ?_, by decide, by decide, by decide, by decide⟩
  · intro draw s h
    simp [classify_failure, h]
  · intro draw s h
    simp [classify_failure, not_lt_of_le h]
  · intro draw s
    simp [classify_failure]
  · intro draw s
    simp [classify_failure]

theorem miseval_classification_witness :
    classify_failure GroundTruth.Draw 100 250 = Miseval.OptimisticDraw :=
  miseval_classification.1 100 250 (by decide)

/-- C5: when no iteration's score passes the solved test, the probe
runs all `iters` iterations, returns `Exhausted` carrying exactly the
final iteration's score, and that score is the `ce` evaluation operand
of the failure record that gets written. -/
theorem probe_exhausted_last_score (gameOver : Bool) (dtz : Option Int)
    (engine : Nat → Option Int) (f : Nat → Int) (draw win : Int) (iters : Nat)
    (hknown : classify_dtz gameOver dtz ≠ GroundTruth.Unknown)
    (heng : ∀ m, engine m = some (f m)) (hit : 1 ≤ iters)
    (hns : ∀ m, m < iters →
      solvedTest (classify_dtz gameOver dtz) draw win (f m) = false) :
    probe engine (classify_dtz gameOver dtz) draw win iters =
      ProbeOutcome.Exhausted (some (f (iters - 1))) ∧
      countSearches (maybeAnalyseEvents gameOver dtz engine draw win iters) =
        iters ∧
      Event.WriteFailure
          (classify_failure (classify_dtz gameOver dtz) draw (f (iters - 1)))
          (some (f (iters - 1))) ∈
        maybeAnalyseEvents gameOver dtz engine draw win iters := by
  have hz : (0 : Nat) + iters - 1 = iters - 1 := by omega
  have hrun := runProbe_exhausted engine f (classify_dtz gameOver dtz) draw win heng
    iters 0 none hit (fun m _ hm2 => hns m (by omega))
  have hev := loopEvents_exhausted engine f (classify_dtz gameOver dtz) draw win heng
    iters 0 none hit (fun m _ hm2 => hns m (by omega))
  rw [hz] at hrun hev
  refine ⟨hrun, ?_, ?_⟩
  · rw [maybeAnalyseEvents_eq _ _ _ _ _ _ hknown, hev, countSearches_cons_sample,
      countSearches_map_range]
    simp [countSearches]
  · rw [maybeAnalyseEvents_eq _ _ _ _ _ _ hknown, hev]
    simp

theorem probe_exhausted_last_score_witness :
    probe (fun _ => some 500) (classify_dtz false (some 0)) 100 200 3 =
      ProbeOutcome.Exhausted (some 500) := by
  have h : ∀ m : Nat, m < 3 →
      solvedTest (classify_dtz false (some 0)) 100 200 ((fun _ => (500 : Int)) m) =
        false := by
    intro m _
    show solvedTest (classify_dtz false (some 0)) 100 200 500 = false
    decide
  exact (probe_exhausted_last_score false (some 0) (fun _ => some 500)
    (fun _ => 500) 100 200 3 (by decide) (fun _ => rfl) (by omega) h).1

/-- C6: a missing engine score at some iteration aborts the probe of
that position: the outcome is `EngineError`, no search beyond that
iteration is issued, no failure record is written, and the surrounding
per-file loop still processes every other position. -/
theorem engine_error_aborts_position_only (gameOver : Bool) (dtz : Option Int)
    (engine : Nat → Option Int) (f : Nat → Int) (draw win : Int) (iters n₀ : Nat)
    (hknown : classify_dtz gameOver dtz ≠ GroundTruth.Unknown)
    (herr : engine n₀ = none) (hlt : n₀ < iters)
    (hbefore : ∀ m, m < n₀ → engine m = some (f m))
    (hns : ∀ m, m < n₀ →
      solvedTest (classify_dtz gameOver dtz) draw win (f m) = false) :
    probe engine (classify_dtz gameOver dtz) draw win iters =
      ProbeOutcome.EngineError ∧
      countSearches (maybeAnalyseEvents gameOver dtz engine draw win iters) =
        n₀ + 1 ∧
      (∀ lab ce, Event.WriteFailure lab ce ∉
        maybeAnalyseEvents gameOver dtz engine draw win iters) ∧
      (∀ (α : Type) (analyse : α → List Event) (ps qs : List α) (p : α),
        processEpdFile analyse (ps ++ p :: qs) =
          processEpdFile analyse ps ++ analyse p :: processEpdFile analyse qs) := by
  have hev := loopEvents_engineError engine f (classify_dtz gameOver dtz) draw win
    n₀ herr hbefore iters 0 none (by omega) (by omega) (fun m _ hm2 => hns m hm2)
  refine ⟨?_, ?_, ?_, ?_⟩
  · exact runProbe_engineError engine f (classify_dtz gameOver dtz) draw win n₀ herr
      hbefore iters 0 none (by omega) (by omega) (fun m _ hm2 => hns m hm2)
  · rw [maybeAnalyseEvents_eq _ _ _ _ _ _ hknown, hev, countSearches_cons_sample,
      countSearches_map_range_nil]
    omega
  · intro lab ce
    rw [maybeAnalyseEvents_eq _ _ _ _ _ _ hknown, hev]
    simp
  · intro α analyse ps qs p
    simp [processEpdFile]

theorem engine_error_aborts_position_only_witness :
    probe (fun _ => none) (classify_dtz false (some 5)) 100 200 5 =
      ProbeOutcome.EngineError :=
  (engine_error_aborts_position_only false (some 5) (fun _ => none) (fun _ => 0)
    100 200 5 0 (by decide) rfl (by omega)
    (fun m hm => absurd hm (Nat.not_lt_zero m))
    (fun m hm => absurd hm (Nat.not_lt_zero m))).1

/-- C9: every position that passes the ground-truth filter writes
exactly one sample record, and writes it before any engine search; a
probe aborted by a missing engine score therefore still has its sample
record while writing no failure record. -/
theorem sample_written_before_probe (gameOver : Bool) (dtz : Option Int)
    (engine : Nat → Option Int) (draw win : Int) (iters : Nat)
    (hknown : classify_dtz gameOver dtz ≠ GroundTruth.Unknown) :
    countSamples (maybeAnalyseEvents gameOver dtz engine draw win iters) = 1 ∧
      (maybeAnalyseEvents gameOver dtz engine draw win iters).head? =
        some Event.WriteSample ∧
      (probe engine (classify_dtz gameOver dtz) draw win iters =
          ProbeOutcome.EngineError →
        ∀ lab ce, Event.WriteFailure lab ce ∉
          maybeAnalyseEvents gameOver dtz engine draw win iters) := by
  rw [maybeAnalyseEvents_eq _ _ _ _ _ _ hknown]
  refine ⟨?_, rfl, ?_⟩
  · have hz : List.countP (fun e =>
        match e with
        | Event.WriteSample => true
        | _ => false)
        (loopEvents engine (classify_dtz gameOver dtz) draw win iters 0 none) = 0 := by
      apply List.countP_eq_zero.mpr
      intro e he
      cases e with
      | WriteSample =>
          exact absurd he
            (loopEvents_no_sample engine (classify_dtz gameOver dtz) draw win iters 0 none)
      | Search n => simp
      | WriteFailure lab ce => simp
      | Crash => simp
    simp [countSamples, List.countP_cons, hz]
  · intro herr lab ce hmem
    rcases List.mem_cons.mp hmem with hbad | hmem2
    · exact Event.noConfusion hbad
    · exact loopEvents_no_failure_of_engineError engine (classify_dtz gameOver dtz)
        draw win iters 0 none herr lab ce hmem2

theorem sample_written_before_probe_witness :
    countSamples (maybeAnalyseEvents false (some 0) (fun _ => none) 100 200 5) = 1 :=
  (sample_written_before_probe false (some 0) (fun _ => none) 100 200 5 (by decide)).1

theorem round_mono_of_le {x y : Real} (h : x ≤ y) : round x ≤ round y := by
  rw [round_eq, round_eq]
  exact Int.floor_le_floor (by linarith)

/-- C2: the budget of iteration `n` is
`round(min_nodes * (max_nodes / min_nodes) ^ (n / (iters - 1)))`; the
schedule therefore has length `iters`, starts at `min_nodes`, ends at
`max_nodes`, and is non-decreasing whenever `max_nodes ≥ min_nodes`. -/
theorem node_schedule_properties (mn mx k : Nat) (h0 : 0 < mn) (hle : mn ≤ mx)
    (hk : 2 ≤ k) :
    (nodeSchedule mn mx k).length = k ∧
      (∀ n, n < k → (nodeSchedule mn mx k)[n]? = some (cur_nodes mn mx k n)) ∧
      cur_nodes mn mx k 0 = ((mn : Nat) : Int) ∧
      cur_nodes mn mx k (k - 1) = ((mx : Nat) : Int) ∧
      (∀ n m : Nat, n ≤ m → cur_nodes mn mx k n ≤ cur_nodes mn mx k m) := by
  have hmn0 : (0 : Real) < (mn : Real) := by exact_mod_cast h0
  have hmnne : (mn : Real) ≠ 0 := ne_of_gt hmn0
  have hk2 : (2 : Real) ≤ (k : Real) := by exact_mod_cast hk
  have hk1 : (0 : Real) < (k : Real) - 1 := by linarith
  refine ⟨by simp [nodeSchedule], ?_, ?_, ?_, ?_⟩
  · intro n hn
    simp [nodeSchedule, hn]
  · unfold cur_nodes
    rw [Nat.cast_zero, zero_div, Real.rpow_zero, mul_one, round_natCast]
  · unfold cur_nodes
    have hcast : ((k - 1 : Nat) : Real) = (k : Real) - 1 := by
      have h1 : (1 : Nat) ≤ k := by omega
      push_cast [h1]
      ring
    have hmx : (mn : Real) * ((mx : Real) / (mn : Real)) = (mx : Real) := by
      field_simp
    rw [hcast, div_self (ne_of_gt hk1), Real.rpow_one, hmx, round_natCast]
  · intro n m hnm
    unfold cur_nodes
    apply round_mono_of_le
    have hx : (1 : Real) ≤ (mx : Real) / (mn : Real) :=
      (one_le_div hmn0).mpr (by exact_mod_cast hle)
    have hexp : (n : Real) / ((k : Real) - 1) ≤ (m : Real) / ((k : Real) - 1) :=
      (div_le_div_iff_of_pos_right hk1).mpr (by exact_mod_cast hnm)
    exact mul_le_mul_of_nonneg_left
      (Real.rpow_le_rpow_of_exponent_le hx hexp) (le_of_lt hmn0)

theorem node_schedule_properties_witness :
    cur_nodes 10000 1000000 5 0 = ((10000 : Nat) : Int) :=
  (node_schedule_properties 10000 1000000 5 (by decide) (by decide)
    (by decide)).2.2.1

/-- C7: the schedule formula divides by `iters - 1`: the computation is
defined for every iteration count of at least 2, and the division
raises (modelled `none`) exactly when the iteration count is 1, no
special case mapping it to the maximal budget existing in the code. -/
theorem budget_division_defined (mn mx n : Nat) :
    (∀ k, 2 ≤ k → cur_nodes_checked mn mx k n = some (cur_nodes mn mx k n)) ∧
      (∀ k, cur_nodes_checked mn mx k n = none ↔ k = 1) := by
  constructor
  · intro k hk
    have h : ¬((k : Int) - 1 = 0) := by omega
    unfold cur_nodes_checked
    rw [if_neg h]
  · intro k
    unfold cur_nodes_checked
    by_cases h : (k : Int) - 1 = 0
    · rw [if_pos h]
      exact ⟨fun _ => by omega, fun _ => rfl⟩
    · rw [if_neg h]
      exact ⟨fun hc => Option.noConfusion hc, fun h1 => (h (by omega)).elim⟩

theorem budget_division_defined_witness :
    cur_nodes_checked 10000 1000000 5 0 = some (cur_nodes 10000 1000000 5 0) ∧
      cur_nodes_checked 10000 1000000 1 0 = none :=
  ⟨(budget_division_defined 10000 1000000 0).1 5 (by decide),
    ((budget_division_defined 10000 1000000 0).2 1).mpr rfl⟩

/-- C8: the Bernoulli sampling decision (one fresh uniform draw per
position, success iff the draw is at most the rate) is consulted only
in the game-replay loop; the EPD loop analyses every position with no
draw consulted. -/
theorem sampling_only_for_game_positions :
    (∀ (α : Type) (analyse : α → List Event) (lines : List α),
      processEpdFile analyse lines = lines.map analyse) ∧
      (∀ (α : Type) (analyse : α → List Event) (rate : Rat)
        (pus : List (α × Rat)) (i : Nat),
        (processGameMoves analyse rate pus)[i]? =
          (pus[i]?).map fun pu =>
            if should_sample pu.2 rate then some (analyse pu.1) else none) ∧
      (∀ u rate : Rat, should_sample u rate = true ↔ u ≤ rate) := by
  refine ⟨fun α analyse lines => rfl, ?_, ?_⟩
  · intro α analyse rate pus
    induction pus with
    | nil => intro i; simp [processGameMoves]
    | cons pu rest ih =>
        intro i
        cases i with
        | zero => simp [processGameMoves]
        | succ j => simpa [processGameMoves] using ih j
  · intro u rate
    simp [should_sample]

/-- C10: the sampling candidates of the game loop are exactly the
boards obtained after pushing each successive mainline move: candidate
`i` is the initial board with the first `i + 1` moves applied, so the
initial position itself (zero moves pushed) is never a candidate and a
game without moves yields none. -/
theorem replay_skips_initial_position :
    ∀ (α β : Type) (push : β → α → β) (init : β) (moves : List α),
      (replayCandidates push init moves).length = moves.length ∧
        (∀ i : Nat, (replayCandidates push init moves)[i]? =
          (moves[i]?).map fun _ =>
            List.foldl push init (List.take (i + 1) moves)) := by
  intro α β push init moves
  constructor
  · induction moves generalizing init with
    | nil => simp [replayCandidates]
    | cons m ms ih => simp [replayCandidates, ih]
  · intro i
    induction moves generalizing init i with
    | nil => simp [replayCandidates]
    | cons m ms ih =>
        cases i with
        | zero => simp [replayCandidates]
        | succ j =>
            simpa [replayCandidates] using ih (push init m) j

end SyzygyBlunders
